import Mathlib

/-!
Shallow embedding of the interpolation core of the `index_signal` repository
(`src/interpolator/mod.rs`).

Modelling conventions:

* `f32` query indices, speeds and sample values are modelled as exact
  rationals (`ℚ`); spectra are complex numbers (`ℂ`) and the final
  interpolated sample is a real number (`ℝ`).  This is the standard
  exact-arithmetic abstraction of floating point: control decisions
  (integrality tests, cache-index comparisons, range checks, the
  oversampling-ratio loop) are all taken on rationals exactly as the
  source takes them on `f32`.
* `rustfft` performs unnormalized transforms: the forward transform of
  `x` at bin `k` is `∑ n, x n * exp (-2*pi*I*k*n/N)` and the inverse at
  position `n` is `∑ k, X k * exp (2*pi*I*k*n/N)`.  `Complex32::to_polar`
  is `(Complex.abs z, z.arg)` and `from_polar r t` is `r * exp (t*I)`.
* Rust casts are modelled explicitly where their wrap/saturate behaviour
  is reachable: `f32 as usize` saturates into `[0, 2^64)` (`f32ToUsize`),
  `isize as usize` is a bitcast, i.e. reduction mod `2^64`
  (`isizeToUsize`).  The `f32 as isize` cast on line 156 of the source is
  the identity for every `f32` that reaches it (a non-integral `f32` has
  magnitude below `2^24`), so the window base is kept as an unbounded `ℤ`.
* The `FftPlanner` and the `fft_cache` only memoize pure transform plans;
  the state tracks the set of memoized lengths (`fftLengths`).  The
  per-channel transform cache and the exact sequence of calls made to the
  sample provider (`calls`) are threaded through every operation so that
  cache-coherence and call-pattern claims can be stated.
-/

namespace IndexSignal

/-- Rust `f32 as usize` cast of an integral value: saturating into
`[0, usize::MAX]`.  Used at `mod.rs:153` (integer passthrough) and
`mod.rs:165` (cache-index comparison). -/
def f32ToUsize (t : ℤ) : ℕ := min t.toNat (2 ^ 64 - 1)

/-- Rust `isize as usize` bitcast (reduction mod `2^64`), used when the
window base index is stored into the per-channel cache (`mod.rs:247`). -/
def isizeToUsize (t : ℤ) : ℕ := (t % (2 : ℤ) ^ 64).toNat

/-- Rust `f32::trunc`: rounding toward zero. -/
def ratTrunc (q : ℚ) : ℤ := if 0 ≤ q then ⌊q⌋ else ⌈q⌉

/-- The Rust iterator `lo..hi` over `isize`: the (possibly empty) list of
integers `lo, lo+1, ..., hi-1`. -/
def intRange (lo hi : ℤ) : List ℤ :=
  (List.range (hi - lo).toNat).map (fun i : ℕ => lo + (i : ℤ))

/-- The sample provider contract (`SampleProvider::get_sample`): a channel
id and a sample index give a sample or a provider-defined error. -/
def SampleProvider (χ ε : Type) : Type := χ → ℕ → Except ε ℚ

/-- One entry of the per-channel transform cache (`TransformCacheEntry`):
the stored (cast) base index and the unrotated forward spectrum. -/
structure TransformEntry where
  index : ℕ
  transform : ℕ → ℂ

/-- Observable interpolator state: per-channel transform cache, the set of
memoized transform-plan lengths, and the log of provider calls made. -/
structure InterpState (χ : Type) where
  transformCache : χ → Option TransformEntry
  fftLengths : List ℕ
  calls : List (χ × ℕ)

/-- State of a freshly constructed interpolator (`Interpolator::new`):
empty transform cache, a plan memoized for the primary window size, no
provider calls yet. -/
def initState (χ : Type) (ws : ℕ) : InterpState χ :=
  { transformCache := fun _ => none, fftLengths := [ws], calls := [] }

/-- Model of `get_fft_cache_entry`: memoize a plan for length `n` on first demand. -/
def ensureFft {χ : Type} (n : ℕ) (st : InterpState χ) : InterpState χ :=
  if n ∈ st.fftLengths then st
  else { st with fftLengths := n :: st.fftLengths }

/-- Model of `Complex32::from_polar`: `from_polar r t = r * (cos t + I sin t)`. -/
noncomputable def fromPolar (r t : ℝ) : ℂ := (r : ℂ) * Complex.exp ((t : ℂ) * Complex.I)

/-- Unnormalized forward DFT of length `N` (what `rustfft`'s
`plan_fft_forward` computes), read at bin `k`. -/
noncomputable def dftF (N : ℕ) (x : ℕ → ℂ) (k : ℕ) : ℂ :=
  ∑ n ∈ Finset.range N,
    x n * Complex.exp (-(2 * (Real.pi : ℂ) * Complex.I) * (k : ℂ) * (n : ℂ) / (N : ℂ))

/-- Unnormalized inverse DFT of length `N` (what `rustfft`'s
`plan_fft_inverse` computes), read at position `n`. -/
noncomputable def dftI (N : ℕ) (x : ℕ → ℂ) (n : ℕ) : ℂ :=
  ∑ k ∈ Finset.range N,
    x k * Complex.exp ((2 * (Real.pi : ℂ) * Complex.I) * (k : ℂ) * (n : ℂ) / (N : ℂ))

/-- The measured forward scale of `construct_fft_cache_entry`: transform a
DC signal of 1.0 forward and take the polar amplitude of bin 0. -/
noncomputable def forwardScale (N : ℕ) : ℝ := Complex.abs (dftF N (fun _ => 1) 0)

/-- The measured inverse scale of `construct_fft_cache_entry`: transform a
DC signal of 1.0 forward then inverse and take the real part at index 0. -/
noncomputable def inverseScale (N : ℕ) : ℝ := (dftI N (fun k => dftF N (fun _ => 1) k) 0).re

/-- The phase-shift table built in `Interpolator::new`: a unit-amplitude
zero-phase spectrum with bin 0 zeroed is inverse-transformed, cyclically
rotated by one sample (first element moved to the end), forward
transformed, and the phase at each bin is read off. -/
noncomputable def phaseShifts (ws : ℕ) (k : ℕ) : ℝ :=
  (dftF ws (fun j => dftI ws (fun i => if i = 0 then 0 else 1) ((j + 1) % ws)) k).arg

/-- One iteration of the phase-rotation loop (`mod.rs:186-200`) at bin
`k`: rotate bin `k` by `shifts k * frac` and write the conjugate rotation
into the mirror bin `ws - k` unless `k` is the self-conjugate midpoint. -/
noncomputable def rotStep (ws : ℕ) (shifts : ℕ → ℝ) (frac : ℝ) (T : ℕ → ℂ) (k : ℕ) : ℕ → ℂ :=
  let a : ℝ := Complex.abs (T k)
  let adjusted : ℝ := (T k).arg + shifts k * frac
  let T1 := Function.update T k (fromPolar a adjusted)
  if ws - k ≠ k then Function.update T1 (ws - k) (fromPolar a (adjusted * (-1))) else T1

/-- The phase-rotation loop `for freq_index in 1..=(window_size / 2)`.
Each iteration reads only bin `k` and writes bins `k` and `ws - k`, and no
later iteration reads a previously written bin, so the fold is exactly
the in-place loop of the source. -/
noncomputable def rotateLoop (ws : ℕ) (shifts : ℕ → ℝ) (frac : ℝ) (T : ℕ → ℂ) : ℕ → ℂ :=
  (List.range' 1 (ws / 2)).foldl (rotStep ws shifts frac) T

/-- The window-assembly loop of `compute_transform` (`mod.rs:221-236`)
over a list of window positions: positions inside `[0, count)` are fetched
from the provider (propagating its first error), positions outside
contribute silence `0`.  Also returns the list of provider calls made. -/
def assembleWindowT {χ ε : Type} (P : SampleProvider χ ε) (count : ℕ) (ch : χ) :
    List ℤ → Except ε (List ℚ) × List (χ × ℕ)
  | [] => (.ok [], [])
  | j :: rest =>
    if 0 ≤ j ∧ j < (count : ℤ) then
      match P ch j.toNat with
      | .error er => (.error er, [(ch, j.toNat)])
      | .ok s =>
        let pr := assembleWindowT P count ch rest
        (pr.1.map (fun w => s :: w), (ch, j.toNat) :: pr.2)
    else
      let pr := assembleWindowT P count ch rest
      (pr.1.map (fun w => (0 : ℚ) :: w), pr.2)

/-- Model of `compute_transform`: assemble the window `[base - half, base + half)`,
forward-transform it, and on success memoize the plan length and store the
new spectrum in the per-channel cache (replacing any previous entry).  On
a provider error the call aborts before any cache update. -/
noncomputable def computeTransform {χ ε : Type} [DecidableEq χ] (P : SampleProvider χ ε)
    (ws count : ℕ) (ch : χ) (base : ℤ) (half : ℕ) (st : InterpState χ) :
    Except ε (ℕ → ℂ) × InterpState χ :=
  match assembleWindowT P count ch (intRange (base - (half : ℤ)) (base + (half : ℤ))) with
  | (.error er, cs) => (.error er, { st with calls := st.calls ++ cs })
  | (.ok w, cs) =>
    let T : ℕ → ℂ := fun k => dftF ws (fun n => ((w.getD n 0 : ℚ) : ℂ)) k
    let st1 := ensureFft ws { st with calls := st.calls ++ cs }
    (.ok T,
      { st1 with
        transformCache :=
          Function.update st1.transformCache ch (some ⟨isizeToUsize base, T⟩) })

/-- Model of `get_interpolated_sample_no_aliasing_filter`: integer indices are an
exact passthrough to the provider; fractional indices fetch (or reuse from
the per-channel cache) the windowed forward spectrum at the truncated
base, rotate each bin's phase by `phaseShifts k * fract`, inverse
transform, and read the window's center tap divided by the measured
inverse scale. -/
noncomputable def getNoAliasing {χ ε : Type} [DecidableEq χ] (P : SampleProvider χ ε)
    (ws count : ℕ) (ch : χ) (index : ℚ) (st : InterpState χ) :
    Except ε ℝ × InterpState χ :=
  let t : ℤ := ratTrunc index
  if index = (t : ℚ) then
    let i := f32ToUsize t
    ((P ch i).map (fun v : ℚ => (v : ℝ)), { st with calls := st.calls ++ [(ch, i)] })
  else
    let half : ℕ := ws / 2
    let fetched : Except ε (ℕ → ℂ) × InterpState χ :=
      match st.transformCache ch with
      | some ent =>
        if ent.index = f32ToUsize t then (.ok ent.transform, st)
        else computeTransform P ws count ch t half st
      | none => computeTransform P ws count ch t half st
    match fetched with
    | (.error er, st1) => (.error er, st1)
    | (.ok T, st1) =>
      let frac : ℝ := ((index - (t : ℚ) : ℚ) : ℝ)
      let rotated := rotateLoop ws (phaseShifts ws) frac T
      let st2 := ensureFft ws st1
      (.ok ((dftI ws rotated half).re / inverseScale ws), st2)

/-- Halving a rate that exceeds one strictly decreases its ceiling;
termination measure of the oversampling-ratio loop. -/
theorem ceil_half_lt {rate : ℚ} (h : 1 < rate) : (⌈rate / 2⌉).toNat < (⌈rate⌉).toNat := by
  have h2 : (2 : ℤ) ≤ ⌈rate⌉ := by
    have h1 : (1 : ℤ) < ⌈rate⌉ := Int.lt_ceil.mpr (by exact_mod_cast h)
    omega
  have hle : ⌈rate / 2⌉ ≤ ⌈rate⌉ - 1 := by
    apply Int.ceil_le.mpr
    have hr : rate ≤ (⌈rate⌉ : ℚ) := Int.le_ceil rate
    have h2' : (2 : ℚ) ≤ (⌈rate⌉ : ℚ) := by exact_mod_cast h2
    have hgoal : rate / 2 ≤ (⌈rate⌉ : ℚ) - 1 := by linarith
    exact hgoal.trans_eq (by push_cast; ring)
  omega

/-- The ratio computation of `get_interpolated_sample_with_aliasing_filter`
(`mod.rs:261-266`): repeatedly halve the rate and double the count until
the rate is at most one.  Returns `(oversample_rate, oversampling_count)`. -/
def oversampleLoop (rate : ℚ) (cnt : ℕ) : ℚ × ℕ :=
  if h : 1 < rate then oversampleLoop (rate / 2) (cnt * 2) else (rate, cnt)
termination_by (⌈rate⌉).toNat
decreasing_by exact ceil_half_lt h

/-- The list of sub-query points of the anti-aliasing oversampler: `cnt`
points starting at `index - rate * (cnt / 2)`, spaced `rate` apart. -/
def subQueryIndices (index rate : ℚ) (cnt : ℕ) : List ℚ :=
  (List.range cnt).map (fun i : ℕ => (index - rate * ((cnt : ℚ) / 2)) + (i : ℚ) * rate)

/-- The sub-query loop of the oversampler (`mod.rs:275-283`): each point is
resolved through the no-aliasing path, failing fast on the first error. -/
noncomputable def runSubQueries {χ ε : Type} [DecidableEq χ] (P : SampleProvider χ ε)
    (ws count : ℕ) (ch : χ) :
    List ℚ → InterpState χ → Except ε (List ℝ) × InterpState χ
  | [], st => (.ok [], st)
  | i :: rest, st =>
    match getNoAliasing P ws count ch i st with
    | (.error er, st1) => (.error er, st1)
    | (.ok v, st1) =>
      match runSubQueries P ws count ch rest st1 with
      | (.error er, st2) => (.error er, st2)
      | (.ok vs, st2) => (.ok (v :: vs), st2)

/-- Model of `get_interpolated_sample_with_aliasing_filter`: compute the
oversampling parameters, resolve the sub-queries through the no-aliasing
path, forward-transform the sub-sample sequence and return the polar
amplitude of its DC bin divided by that plan's measured forward scale. -/
noncomputable def getAliasing {χ ε : Type} [DecidableEq χ] (P : SampleProvider χ ε)
    (ws count : ℕ) (ch : χ) (index speed : ℚ) (st : InterpState χ) :
    Except ε ℝ × InterpState χ :=
  let rr := oversampleLoop speed 1
  match runSubQueries P ws count ch (subQueryIndices index rr.1 rr.2) st with
  | (.error er, st1) => (.error er, st1)
  | (.ok vals, st1) =>
    let st2 := ensureFft rr.2 st1
    (.ok (Complex.abs (dftF rr.2 (fun n => ((vals.getD n 0 : ℝ) : ℂ)) 0) / forwardScale rr.2),
      st2)

/-- Model of `get_interpolated_sample`: speeds at most one delegate to the
no-aliasing path, faster speeds go through the anti-aliasing oversampler. -/
noncomputable def getInterpolatedSample {χ ε : Type} [DecidableEq χ] (P : SampleProvider χ ε)
    (ws count : ℕ) (ch : χ) (index speed : ℚ) (st : InterpState χ) :
    Except ε ℝ × InterpState χ :=
  if speed ≤ 1 then getNoAliasing P ws count ch index st
  else getAliasing P ws count ch index speed st

/-! ### Basic lemmas about truncation, ranges and the passthrough path -/

theorem ratTrunc_intCast (n : ℤ) : ratTrunc (n : ℚ) = n := by
  unfold ratTrunc
  split
  · exact Int.floor_intCast n
  · exact Int.ceil_intCast n

theorem ratTrunc_of_nonneg {q : ℚ} (h : 0 ≤ q) : ratTrunc q = ⌊q⌋ := by
  unfold ratTrunc
  exact if_pos h

theorem mem_intRange {lo hi j : ℤ} : j ∈ intRange lo hi ↔ lo ≤ j ∧ j < hi := by
  unfold intRange
  simp only [List.mem_map, List.mem_range]
  constructor
  · rintro ⟨i, hi', rfl⟩
    constructor
    · omega
    · omega
  · rintro ⟨h1, h2⟩
    refine ⟨(j - lo).toNat, ?_, ?_⟩
    · omega
    · omega

theorem intRange_length (lo hi : ℤ) : (intRange lo hi).length = (hi - lo).toNat := by
  unfold intRange
  rw [List.length_map, List.length_range]

/-- Integer indices take the passthrough branch of
`get_interpolated_sample_no_aliasing_filter`: the (saturating-cast) index
is forwarded to the provider directly and only the call log changes. -/
theorem getNoAliasing_intCast {χ ε : Type} [DecidableEq χ] (P : SampleProvider χ ε)
    (ws count : ℕ) (ch : χ) (n : ℤ) (st : InterpState χ) :
    getNoAliasing P ws count ch (n : ℚ) st =
      ((P ch (f32ToUsize n)).map (fun v : ℚ => (v : ℝ)),
        { st with calls := st.calls ++ [(ch, f32ToUsize n)] }) := by
  unfold getNoAliasing
  rw [ratTrunc_intCast]
  simp

/-- On a fractional index with a cache entry whose stored index matches the
cast truncated query index, the no-aliasing path reuses the cached
spectrum: no provider call, no transform computation. -/
theorem getNoAliasing_hit {χ ε : Type} [DecidableEq χ] (P : SampleProvider χ ε)
    (ws count : ℕ) (ch : χ) (index : ℚ) (st : InterpState χ) (ent : TransformEntry)
    (hni : index ≠ (ratTrunc index : ℚ))
    (hent : st.transformCache ch = some ent)
    (hidx : ent.index = f32ToUsize (ratTrunc index)) :
    getNoAliasing P ws count ch index st =
      (.ok ((dftI ws
          (rotateLoop ws (phaseShifts ws) ((index - (ratTrunc index : ℚ) : ℚ) : ℝ)
            ent.transform) (ws / 2)).re / inverseScale ws),
        ensureFft ws st) := by
  unfold getNoAliasing
  rw [if_neg hni, hent]
  dsimp only
  rw [if_pos hidx]

/-- On a fractional index with no matching cache entry, the no-aliasing
path computes the transform and then rotates, inverts and scales it. -/
theorem getNoAliasing_miss {χ ε : Type} [DecidableEq χ] (P : SampleProvider χ ε)
    (ws count : ℕ) (ch : χ) (index : ℚ) (st : InterpState χ)
    (hni : index ≠ (ratTrunc index : ℚ))
    (hmiss : ∀ ent, st.transformCache ch = some ent → ent.index ≠ f32ToUsize (ratTrunc index)) :
    getNoAliasing P ws count ch index st =
      match computeTransform P ws count ch (ratTrunc index) (ws / 2) st with
      | (.error er, st1) => (.error er, st1)
      | (.ok T, st1) =>
        (.ok ((dftI ws
            (rotateLoop ws (phaseShifts ws) ((index - (ratTrunc index : ℚ) : ℚ) : ℝ) T)
            (ws / 2)).re / inverseScale ws),
          ensureFft ws st1) := by
  unfold getNoAliasing
  rw [if_neg hni]
  cases hc : st.transformCache ch with
  | none => rfl
  | some ent =>
    dsimp only
    rw [if_neg (hmiss ent hc)]

/-! ### Lemmas about the window-assembly loop -/

/-- Every provider call made while assembling a window is on the queried
channel and strictly inside `[0, count)`. -/
theorem assembleWindowT_calls {χ ε : Type} (P : SampleProvider χ ε) (count : ℕ) (ch : χ)
    (l : List ℤ) :
    ∀ p ∈ (assembleWindowT P count ch l).2, p.1 = ch ∧ p.2 < count := by
  induction l with
  | nil => intro p hp; simp [assembleWindowT] at hp
  | cons j rest ih =>
    intro p hp
    unfold assembleWindowT at hp
    by_cases hj : 0 ≤ j ∧ j < (count : ℤ)
    · rw [if_pos hj] at hp
      cases hP : P ch j.toNat with
      | error er =>
        rw [hP] at hp
        simp only [List.mem_singleton] at hp
        subst hp
        exact ⟨rfl, by omega⟩
      | ok s =>
        rw [hP] at hp
        simp only [List.mem_cons] at hp
        rcases hp with rfl | hp
        · exact ⟨rfl, by omega⟩
        · exact ih p hp
    · rw [if_neg hj] at hp
      exact ih p hp

/-- Window assembly over a list of wholly in-range positions with a
provider that always returns `c` yields the constant window. -/
theorem assembleWindowT_const {χ ε : Type} (count : ℕ) (ch : χ) (c : ℚ) (l : List ℤ)
    (hl : ∀ j ∈ l, 0 ≤ j ∧ j < (count : ℤ)) :
    (assembleWindowT (fun _ _ => (.ok c : Except ε ℚ)) count ch l).1 =
      .ok (l.map fun _ => c) := by
  induction l with
  | nil => rfl
  | cons j rest ih =>
    unfold assembleWindowT
    rw [if_pos (hl j (List.mem_cons_self j rest))]
    have hrec := ih (fun j' hj' => hl j' (List.mem_cons_of_mem j hj'))
    simp only [List.map_cons]
    cases hr : (assembleWindowT (fun _ _ => (.ok c : Except ε ℚ)) count ch rest).1 with
    | error er => rw [hr] at hrec; cases hrec
    | ok w =>
      rw [hr] at hrec
      simp only [Except.ok.injEq] at hrec
      simp only [hr, Except.map, hrec]

/-- Fail-fast error propagation in window assembly: if every in-range
position before `j` succeeds, `j` is in range, and the provider fails at
`j`, the assembly returns exactly the provider's error, and the calls made
stop at `j`. -/
theorem assembleWindowT_firstError {χ ε : Type} (P : SampleProvider χ ε) (count : ℕ)
    (ch : χ) (l1 l2 : List ℤ) (j : ℤ) (er : ε)
    (hok : ∀ j' ∈ l1, 0 ≤ j' → j' < (count : ℤ) → ∃ v, P ch j'.toNat = .ok v)
    (hj : 0 ≤ j ∧ j < (count : ℤ)) (he : P ch j.toNat = .error er) :
    (assembleWindowT P count ch (l1 ++ j :: l2)).1 = .error er := by
  induction l1 with
  | nil =>
    simp only [List.nil_append]
    unfold assembleWindowT
    rw [if_pos hj, he]
  | cons j' rest ih =>
    simp only [List.cons_append]
    unfold assembleWindowT
    by_cases hj' : 0 ≤ j' ∧ j' < (count : ℤ)
    · rw [if_pos hj']
      obtain ⟨v, hv⟩ := hok j' (List.mem_cons_self j' rest) hj'.1 hj'.2
      rw [hv]
      have hrec := ih (fun a ha h1 h2 => hok a (List.mem_cons_of_mem j' ha) h1 h2)
      cases hr : (assembleWindowT P count ch (rest ++ j :: l2)).1 with
      | error e2 =>
        rw [hr] at hrec
        cases hrec
        simp only [hr, Except.map]
      | ok w => rw [hr] at hrec; cases hrec
    · rw [if_neg hj']
      have hrec := ih (fun a ha h1 h2 => hok a (List.mem_cons_of_mem j' ha) h1 h2)
      cases hr : (assembleWindowT P count ch (rest ++ j :: l2)).1 with
      | error e2 =>
        rw [hr] at hrec
        cases hrec
        simp only [hr, Except.map]
      | ok w => rw [hr] at hrec; cases hrec

/-- A successful window has the same length as the position list, and
every out-of-range position contributes exactly silence `0`. -/
theorem assembleWindowT_ok {χ ε : Type} (P : SampleProvider χ ε) (count : ℕ) (ch : χ)
    (l : List ℤ) (w : List ℚ) (hw : (assembleWindowT P count ch l).1 = .ok w) :
    w.length = l.length ∧
      ∀ i : ℕ, i < l.length → ¬(0 ≤ l.getD i 0 ∧ l.getD i 0 < (count : ℤ)) →
        w.getD i 0 = 0 := by
  induction l generalizing w with
  | nil =>
    unfold assembleWindowT at hw
    simp only [Except.ok.injEq] at hw
    subst hw
    refine ⟨rfl, ?_⟩
    intro i h
    simp only [List.length_nil] at h
    omega
  | cons j rest ih =>
    unfold assembleWindowT at hw
    by_cases hj : 0 ≤ j ∧ j < (count : ℤ)
    · rw [if_pos hj] at hw
      cases hP : P ch j.toNat with
      | error er => rw [hP] at hw; cases hw
      | ok s =>
        rw [hP] at hw
        dsimp only at hw
        cases hr : (assembleWindowT P count ch rest).1 with
        | error er => rw [hr] at hw; simp only [Except.map] at hw; cases hw
        | ok w' =>
          rw [hr] at hw
          simp only [Except.map, Except.ok.injEq] at hw
          subst hw
          obtain ⟨hlen, hzero⟩ := ih w' hr
          refine ⟨by simp [hlen], ?_⟩
          intro i hi hout
          cases i with
          | zero =>
            simp only [List.getD_cons_zero] at hout
            exact absurd hj hout
          | succ i' =>
            simp only [List.getD_cons_succ] at hout ⊢
            refine hzero i' ?_ hout
            simp only [List.length_cons] at hi
            omega
    · rw [if_neg hj] at hw
      dsimp only at hw
      cases hr : (assembleWindowT P count ch rest).1 with
      | error er => rw [hr] at hw; simp only [Except.map] at hw; cases hw
      | ok w' =>
        rw [hr] at hw
        simp only [Except.map, Except.ok.injEq] at hw
        subst hw
        obtain ⟨hlen, hzero⟩ := ih w' hr
        refine ⟨by simp [hlen], ?_⟩
        intro i hi hout
        cases i with
        | zero => simp only [List.getD_cons_zero]
        | succ i' =>
          simp only [List.getD_cons_succ] at hout ⊢
          refine hzero i' ?_ hout
          simp only [List.length_cons] at hi
          omega

/-! ### Lemmas about the discrete Fourier transforms -/

theorem dftF_bin_zero (N : ℕ) (x : ℕ → ℂ) : dftF N x 0 = ∑ n ∈ Finset.range N, x n := by
  unfold dftF
  refine Finset.sum_congr rfl ?_
  intro n _
  norm_num

theorem dftI_pos_zero (N : ℕ) (x : ℕ → ℂ) : dftI N x 0 = ∑ k ∈ Finset.range N, x k := by
  unfold dftI
  refine Finset.sum_congr rfl ?_
  intro k _
  norm_num

theorem dftF_congr (N : ℕ) (x y : ℕ → ℂ) (k : ℕ) (h : ∀ n < N, x n = y n) :
    dftF N x k = dftF N y k := by
  unfold dftF
  refine Finset.sum_congr rfl ?_
  intro n hn
  rw [h n (Finset.mem_range.mp hn)]

/-- A constant signal has no energy outside bin zero: the forward DFT of
`fun _ => c` vanishes at every bin `k` with `0 < k < N`. -/
theorem dftF_const_ne_zero (N : ℕ) (c : ℂ) (k : ℕ) (hk0 : 0 < k) (hkN : k < N) :
    dftF N (fun _ => c) k = 0 := by
  have hNpos : 0 < N := lt_trans hk0 hkN
  have hN : (N : ℂ) ≠ 0 := Nat.cast_ne_zero.mpr hNpos.ne'
  have hωN : Complex.exp (-(2 * (Real.pi : ℂ) * Complex.I) * (k : ℂ) / (N : ℂ)) ^ N = 1 := by
    rw [← Complex.exp_nat_mul]
    have harg : (N : ℂ) * (-(2 * (Real.pi : ℂ) * Complex.I) * (k : ℂ) / (N : ℂ)) =
        ((-(k : ℤ) : ℤ) : ℂ) * (2 * (Real.pi : ℂ) * Complex.I) := by
      push_cast
      field_simp
      ring_nf
    rw [harg]
    exact Complex.exp_int_mul_two_pi_mul_I (-(k : ℤ))
  have hω1 : Complex.exp (-(2 * (Real.pi : ℂ) * Complex.I) * (k : ℂ) / (N : ℂ)) ≠ 1 := by
    intro hcon
    obtain ⟨m, hm⟩ := Complex.exp_eq_one_iff.mp hcon
    have h1 : -(2 * (Real.pi : ℂ) * Complex.I) * (k : ℂ) =
        (m : ℂ) * (2 * (Real.pi : ℂ) * Complex.I) * (N : ℂ) := by
      have h0 := congrArg (fun w : ℂ => w * (N : ℂ)) hm
      simpa [div_mul_cancel₀, hN] using h0
    have h2 : (2 * (Real.pi : ℂ) * Complex.I) * (-(k : ℂ)) =
        (2 * (Real.pi : ℂ) * Complex.I) * ((m : ℂ) * (N : ℂ)) := by
      linear_combination h1
    have h3 : (-(k : ℂ)) = (m : ℂ) * (N : ℂ) :=
      mul_left_cancel₀ Complex.two_pi_I_ne_zero h2
    have h4 : -(k : ℤ) = m * (N : ℤ) := by exact_mod_cast h3
    have hk0' : (0 : ℤ) < (k : ℤ) := by exact_mod_cast hk0
    have hkN' : (k : ℤ) < (N : ℤ) := by exact_mod_cast hkN
    have hNpos' : (0 : ℤ) < (N : ℤ) := by exact_mod_cast hNpos
    rcases lt_or_le m 0 with hm0 | hm0
    · have hm1 : (1 : ℤ) ≤ -m := by omega
      have h5 : (1 : ℤ) * (N : ℤ) ≤ (-m) * (N : ℤ) :=
        mul_le_mul_of_nonneg_right hm1 hNpos'.le
      have hkeq : (k : ℤ) = (-m) * (N : ℤ) := by linear_combination -h4
      rw [one_mul] at h5
      omega
    · have h5 : (0 : ℤ) ≤ m * (N : ℤ) := mul_nonneg hm0 hNpos'.le
      omega
  have hsum : dftF N (fun _ => c) k =
      c * ∑ n ∈ Finset.range N,
        Complex.exp (-(2 * (Real.pi : ℂ) * Complex.I) * (k : ℂ) / (N : ℂ)) ^ n := by
    unfold dftF
    rw [Finset.mul_sum]
    refine Finset.sum_congr rfl ?_
    intro n _
    rw [← Complex.exp_nat_mul]
    congr 1
    ring_nf
  rw [hsum, geom_sum_eq hω1, hωN]
  simp

theorem dftF_const_zero (N : ℕ) (c : ℂ) : dftF N (fun _ => c) 0 = (N : ℂ) * c := by
  rw [dftF_bin_zero]
  rw [Finset.sum_const, Finset.card_range, nsmul_eq_mul]

/-- The measured forward scale is the transform length. -/
theorem forwardScale_eq (N : ℕ) : forwardScale N = (N : ℝ) := by
  unfold forwardScale
  rw [dftF_const_zero]
  simp

/-- The measured inverse scale is the transform length as well. -/
theorem inverseScale_eq (N : ℕ) (hN : 0 < N) : inverseScale N = (N : ℝ) := by
  unfold inverseScale
  rw [dftI_pos_zero]
  rw [Finset.sum_eq_single_of_mem 0 (Finset.mem_range.mpr hN)]
  · rw [dftF_const_zero]
    simp
  · intro k _ hk
    exact dftF_const_ne_zero N 1 k (Nat.pos_of_ne_zero hk) (by simpa using Finset.mem_range.mp ‹k ∈ Finset.range N›)

/-- An all-DC spectrum (zero at every nonzero bin below `N`) inverse
transforms to the constant `T 0` at every position. -/
theorem dftI_dc (N : ℕ) (T : ℕ → ℂ) (n : ℕ) (hN : 0 < N)
    (h : ∀ k, 0 < k → k < N → T k = 0) : dftI N T n = T 0 := by
  unfold dftI
  rw [Finset.sum_eq_single_of_mem 0 (Finset.mem_range.mpr hN)]
  · norm_num
  · intro k hk hk0
    rw [h k (Nat.pos_of_ne_zero hk0) (Finset.mem_range.mp hk)]
    exact zero_mul _

/-! ### The phase-rotation loop fixes an all-DC spectrum -/

theorem rotStep_fixed (ws : ℕ) (s : ℕ → ℝ) (f : ℝ) (T : ℕ → ℂ) (k : ℕ)
    (hk : T k = 0) (hmk : T (ws - k) = 0) :
    rotStep ws s f T k = T := by
  unfold rotStep fromPolar
  rw [hk]
  simp only [map_zero, Complex.ofReal_zero, zero_mul]
  have hup : Function.update T k 0 = T := by
    rw [← hk]
    exact Function.update_eq_self k T
  rw [hup]
  split
  · rw [← hmk]
    exact Function.update_eq_self _ T
  · rfl

theorem foldl_rotStep_fixed (ws : ℕ) (s : ℕ → ℝ) (f : ℝ) (T : ℕ → ℂ) (l : List ℕ)
    (h : ∀ k ∈ l, T k = 0 ∧ T (ws - k) = 0) :
    l.foldl (rotStep ws s f) T = T := by
  induction l with
  | nil => rfl
  | cons k rest ih =>
    have hk := h k (List.mem_cons_self k rest)
    simp only [List.foldl_cons, rotStep_fixed ws s f T k hk.1 hk.2]
    exact ih (fun a ha => h a (List.mem_cons_of_mem k ha))

/-- The phase-rotation loop leaves a spectrum unchanged whenever every bin
it touches is zero (in particular, the spectrum of a constant window). -/
theorem rotateLoop_fixed (ws : ℕ) (s : ℕ → ℝ) (f : ℝ) (T : ℕ → ℂ)
    (h : ∀ k, 1 ≤ k → k ≤ ws / 2 → T k = 0 ∧ T (ws - k) = 0) :
    rotateLoop ws s f T = T := by
  unfold rotateLoop
  refine foldl_rotStep_fixed ws s f T _ ?_
  intro k hk
  rw [List.mem_range'] at hk
  obtain ⟨i, hi, rfl⟩ := hk
  exact h (1 + 1 * i) (by omega) (by omega)

/-! ### The oversampling-ratio loop -/

theorem oversampleLoop_eq (rate : ℚ) (cnt : ℕ) :
    oversampleLoop rate cnt =
      if 1 < rate then oversampleLoop (rate / 2) (cnt * 2) else (rate, cnt) := by
  rw [oversampleLoop]
  split
  · rfl
  · rfl

/-- Full characterization of the oversampling-ratio loop: it performs some
number `j` of halvings, multiplying the count by `2^j`, stops as soon as
the rate is at most one, and every strictly earlier prefix still had rate
above one. -/
theorem oversampleLoop_spec : ∀ m : ℕ, ∀ rate : ℚ, ∀ cnt : ℕ, (⌈rate⌉).toNat ≤ m →
    ∃ j : ℕ, oversampleLoop rate cnt = (rate / 2 ^ j, cnt * 2 ^ j) ∧
      rate / 2 ^ j ≤ 1 ∧ ∀ i < j, 1 < rate / 2 ^ i := by
  intro m
  induction m with
  | zero =>
    intro rate cnt hm
    have hr1 : ¬ 1 < rate := by
      intro hcon
      have : (1 : ℤ) < ⌈rate⌉ := Int.lt_ceil.mpr (by exact_mod_cast hcon)
      omega
    refine ⟨0, ?_, ?_, ?_⟩
    · rw [oversampleLoop_eq, if_neg hr1]
      norm_num
    · push_neg at hr1
      simpa using hr1
    · intro i hi
      omega
  | succ m ih =>
    intro rate cnt hm
    by_cases hr1 : 1 < rate
    · have hlt := ceil_half_lt hr1
      obtain ⟨j, hj, hle, hmin⟩ := ih (rate / 2) (cnt * 2) (by omega)
      refine ⟨j + 1, ?_, ?_, ?_⟩
      · rw [oversampleLoop_eq, if_pos hr1, hj]
        simp only [Prod.mk.injEq]
        constructor
        · rw [div_div, ← pow_succ']
        · rw [mul_assoc, ← pow_succ']
      · rw [div_div, ← pow_succ'] at hle
        exact hle
      · intro i hi
        cases i with
        | zero => simpa using hr1
        | succ i' =>
          have hstep := hmin i' (by omega)
          rwa [div_div, ← pow_succ'] at hstep
    · refine ⟨0, ?_, ?_, ?_⟩
      · rw [oversampleLoop_eq, if_neg hr1]
        norm_num
      · push_neg at hr1
        simpa using hr1
      · intro i hi
        omega

/-! ### State bookkeeping lemmas -/

theorem ensureFft_calls {χ : Type} (n : ℕ) (st : InterpState χ) :
    (ensureFft n st).calls = st.calls := by
  unfold ensureFft
  split <;> rfl

theorem ensureFft_cache {χ : Type} (n : ℕ) (st : InterpState χ) :
    (ensureFft n st).transformCache = st.transformCache := by
  unfold ensureFft
  split <;> rfl

theorem ensureFft_mem {χ : Type} {n : ℕ} {st : InterpState χ} (h : n ∈ st.fftLengths) :
    ensureFft n st = st := by
  unfold ensureFft
  rw [if_pos h]

/-- The provider calls made by `compute_transform` are exactly those of
its window-assembly loop, appended to the log. -/
theorem computeTransform_calls {χ ε : Type} [DecidableEq χ] (P : SampleProvider χ ε)
    (ws count : ℕ) (ch : χ) (base : ℤ) (half : ℕ) (st : InterpState χ) :
    (computeTransform P ws count ch base half st).2.calls =
      st.calls ++
        (assembleWindowT P count ch (intRange (base - (half : ℤ)) (base + (half : ℤ)))).2 := by
  unfold computeTransform
  cases hA : assembleWindowT P count ch (intRange (base - (half : ℤ)) (base + (half : ℤ))) with
  | mk r cs =>
    cases r with
    | error er => rfl
    | ok w =>
      dsimp only
      rw [ensureFft_calls]

/-- Running `compute_transform` on a failing window: the provider's error is
surfaced and the state change is confined to the call log. -/
theorem computeTransform_error {χ ε : Type} [DecidableEq χ] (P : SampleProvider χ ε)
    (ws count : ℕ) (ch : χ) (base : ℤ) (half : ℕ) (st : InterpState χ) (er : ε)
    (hA : (assembleWindowT P count ch (intRange (base - (half : ℤ)) (base + (half : ℤ)))).1 =
      .error er) :
    computeTransform P ws count ch base half st =
      (.error er,
        { st with calls := st.calls ++
            (assembleWindowT P count ch (intRange (base - (half : ℤ)) (base + (half : ℤ)))).2 }) := by
  unfold computeTransform
  cases hA2 : assembleWindowT P count ch (intRange (base - (half : ℤ)) (base + (half : ℤ))) with
  | mk r cs =>
    rw [hA2] at hA
    cases r with
    | error e2 =>
      simp only [Except.error.injEq] at hA
      subst hA
      rfl
    | ok w => cases hA

/-- Running `compute_transform` on a successful window: the forward spectrum of
the assembled window is returned and stored (with the bitcast base index)
in the per-channel cache, after memoizing the plan length. -/
theorem computeTransform_ok {χ ε : Type} [DecidableEq χ] (P : SampleProvider χ ε)
    (ws count : ℕ) (ch : χ) (base : ℤ) (half : ℕ) (st : InterpState χ) (w : List ℚ)
    (hA : (assembleWindowT P count ch (intRange (base - (half : ℤ)) (base + (half : ℤ)))).1 =
      .ok w) :
    computeTransform P ws count ch base half st =
      (.ok (fun k => dftF ws (fun n => ((w.getD n 0 : ℚ) : ℂ)) k),
        { ensureFft ws
            { st with calls := st.calls ++
                (assembleWindowT P count ch
                  (intRange (base - (half : ℤ)) (base + (half : ℤ)))).2 } with
          transformCache :=
            Function.update
              (ensureFft ws
                { st with calls := st.calls ++
                    (assembleWindowT P count ch
                      (intRange (base - (half : ℤ)) (base + (half : ℤ)))).2 }).transformCache
              ch
              (some ⟨isizeToUsize base,
                fun k => dftF ws (fun n => ((w.getD n 0 : ℚ) : ℂ)) k⟩) }) := by
  unfold computeTransform
  cases hA2 : assembleWindowT P count ch (intRange (base - (half : ℤ)) (base + (half : ℤ))) with
  | mk r cs =>
    rw [hA2] at hA
    cases r with
    | error e2 => cases hA
    | ok w2 =>
      simp only [Except.ok.injEq] at hA
      subst hA
      rfl

/-! ### Concrete sample providers used by the closed witnesses -/

/-- Provider returning each index as its own sample value. -/
def sampleIdx : SampleProvider ℕ Unit := fun _ k => .ok (k : ℚ)

/-- Provider returning the constant `c` everywhere. -/
def sampleConst (c : ℚ) : SampleProvider ℕ Unit := fun _ _ => .ok c

/-- The alternating `+1, -1` Nyquist provider of the repository's tests. -/
def sampleNyquist : SampleProvider ℕ Unit :=
  fun _ k => .ok (if k % 2 = 0 then 1 else -1)

/-- The Nyquist-plus-period-4-harmonic provider of the repository's tests
(`NyquistAndLowerHarmonicSampleProvider`). -/
def sampleHarmonic : SampleProvider ℕ Unit :=
  fun _ k => .ok ((if k % 2 = 0 then (1 : ℚ) / 2 else -(1 / 2)) +
    (if k % 4 = 0 then 1 / 2 else if k % 4 = 2 then -(1 / 2) else 0))

/-- Provider failing exactly at index `m` and echoing the index elsewhere. -/
def sampleErrAt (m : ℕ) : SampleProvider ℕ Unit :=
  fun _ k => if k = m then .error () else .ok (k : ℚ)

/-! ### The claims -/

/-- C1: for every channel and every (nonnegative, `usize`-representable)
index with zero fractional part, `get_interpolated_sample` with
`relative_speed <= 1` returns exactly the provider's value at that integer
index — the result is the provider's rational sample embedded into the
reals with no arithmetic applied — and both the per-channel transform
cache and the plan cache are bypassed (the state changes only by the
recorded provider call). -/
theorem c1_integer_passthrough {χ ε : Type} [DecidableEq χ] (P : SampleProvider χ ε)
    (ws count : ℕ) (ch : χ) (n : ℕ) (speed : ℚ) (st : InterpState χ)
    (hsp : speed ≤ 1) (hn : n < 2 ^ 64) :
    getInterpolatedSample P ws count ch (n : ℚ) speed st =
      ((P ch n).map (fun v : ℚ => (v : ℝ)),
        { st with calls := st.calls ++ [(ch, n)] }) := by
  unfold getInterpolatedSample
  rw [if_pos hsp]
  have hcast : ((n : ℤ) : ℚ) = (n : ℚ) := by push_cast; rfl
  rw [← hcast, getNoAliasing_intCast]
  have hfix : f32ToUsize (n : ℤ) = n := by
    unfold f32ToUsize
    rw [Int.toNat_natCast]
    omega
  rw [hfix]

/-- Witness for C1 at a concrete instance: window size 4, 10 samples,
index 5, speed 0. -/
theorem c1_integer_passthrough_witness :
    ((0 : ℚ) ≤ 1 ∧ (5 : ℕ) < 2 ^ 64) ∧
      getInterpolatedSample sampleIdx 4 10 0 ((5 : ℕ) : ℚ) 0 (initState ℕ 4) =
        ((sampleIdx 0 5).map (fun v : ℚ => (v : ℝ)),
          { initState ℕ 4 with calls := (initState ℕ 4).calls ++ [(0, 5)] }) :=
  ⟨⟨by norm_num, by norm_num⟩,
    c1_integer_passthrough sampleIdx 4 10 0 5 0 (initState ℕ 4) (by norm_num) (by norm_num)⟩

/-- C3 counterexample: the integer passthrough performs no range check.
With 4 samples, querying integer index 4 (one past the end) with speed 0
makes the core call the provider at index 4, which is not inside
`[0, sample_count) = [0, 4)`. -/
theorem c3_counterexample :
    (getInterpolatedSample sampleIdx 4 4 0 (4 : ℚ) 0 (initState ℕ 4)).2.calls = [(0, 4)] ∧
      ¬ (4 : ℕ) < 4 := by
  constructor
  · unfold getInterpolatedSample
    rw [if_pos (by norm_num : (0 : ℚ) ≤ 1)]
    rw [show (4 : ℚ) = (((4 : ℤ)) : ℚ) by norm_num, getNoAliasing_intCast]
    simp [initState, f32ToUsize]
  · omega

/-- C3 amended: on every query with a nonzero fractional part, any
provider call made by the no-aliasing path is either one already in the
log or lies on the queried channel strictly inside `[0, sample_count)`,
and every window position outside that range contributes exactly zero
(silence) to the assembled window rather than being forwarded.  The
original claim fails for integer queries, whose passthrough forwards the
truncated index to the provider unchecked (see the counterexample). -/
theorem c3_amended {χ ε : Type} [DecidableEq χ] (P : SampleProvider χ ε)
    (ws count : ℕ) (ch : χ) (index : ℚ) (st : InterpState χ)
    (hni : index ≠ (ratTrunc index : ℚ)) :
    (∀ p ∈ (getNoAliasing P ws count ch index st).2.calls,
        p ∈ st.calls ∨ (p.1 = ch ∧ p.2 < count)) ∧
      (∀ w, (assembleWindowT P count ch
            (intRange (ratTrunc index - (ws / 2 : ℕ)) (ratTrunc index + (ws / 2 : ℕ)))).1 =
          .ok w →
        ∀ i : ℕ,
          i < (intRange (ratTrunc index - (ws / 2 : ℕ)) (ratTrunc index + (ws / 2 : ℕ))).length →
          ¬(0 ≤ (intRange (ratTrunc index - (ws / 2 : ℕ))
              (ratTrunc index + (ws / 2 : ℕ))).getD i 0 ∧
            (intRange (ratTrunc index - (ws / 2 : ℕ))
              (ratTrunc index + (ws / 2 : ℕ))).getD i 0 < (count : ℤ)) →
          w.getD i 0 = 0) := by
  constructor
  · intro p hp
    unfold getNoAliasing at hp
    rw [if_neg hni] at hp
    have hcompute : ∀ st1 : InterpState χ,
        st1 = (computeTransform P ws count ch (ratTrunc index) (ws / 2) st).2 →
        p ∈ st1.calls → p ∈ st.calls ∨ (p.1 = ch ∧ p.2 < count) := by
      intro st1 hst1 hmem
      rw [hst1, computeTransform_calls] at hmem
      rcases List.mem_append.mp hmem with h | h
      · exact Or.inl h
      · exact Or.inr (assembleWindowT_calls P count ch _ p h)
    cases hc : st.transformCache ch with
    | some ent =>
      rw [hc] at hp
      dsimp only at hp
      by_cases hidx : ent.index = f32ToUsize (ratTrunc index)
      · rw [if_pos hidx] at hp
        dsimp only at hp
        rw [ensureFft_calls] at hp
        exact Or.inl hp
      · rw [if_neg hidx] at hp
        cases hC : computeTransform P ws count ch (ratTrunc index) (ws / 2) st with
        | mk r st1 =>
          rw [hC] at hp
          cases r with
          | error er =>
            dsimp only at hp
            exact hcompute st1 (by rw [hC]) hp
          | ok T =>
            dsimp only at hp
            rw [ensureFft_calls] at hp
            exact hcompute st1 (by rw [hC]) hp
    | none =>
      rw [hc] at hp
      dsimp only at hp
      cases hC : computeTransform P ws count ch (ratTrunc index) (ws / 2) st with
      | mk r st1 =>
        rw [hC] at hp
        cases r with
        | error er =>
          dsimp only at hp
          exact hcompute st1 (by rw [hC]) hp
        | ok T =>
          dsimp only at hp
          rw [ensureFft_calls] at hp
          exact hcompute st1 (by rw [hC]) hp
  · intro w hw i hi hout
    exact (assembleWindowT_ok P count ch _ w hw).2 i hi hout

/-- Witness for C3 amended at a concrete instance: fractional index 1/2
with window size 4 over 4 samples. -/
theorem c3_amended_witness :
    ((1 : ℚ) / 2 ≠ ((ratTrunc (1 / 2) : ℤ) : ℚ)) ∧
      (∀ p ∈ (getNoAliasing sampleIdx 4 4 0 (1 / 2) (initState ℕ 4)).2.calls,
        p ∈ (initState ℕ 4).calls ∨ (p.1 = 0 ∧ p.2 < 4)) :=
  ⟨by norm_num [ratTrunc],
    (c3_amended sampleIdx 4 4 0 (1 / 2) (initState ℕ 4) (by norm_num [ratTrunc])).1⟩

/-- C7: when a fractional query's (cast) truncated base equals the base
index cached for that channel and the primary plan is already memoized,
the call leaves the state completely unchanged: no provider calls, no new
forward transform, identical cache — repeated queries at the same integer
base are idempotent with respect to cache state. -/
theorem c7_cache_hit_idempotent {χ ε : Type} [DecidableEq χ] (P : SampleProvider χ ε)
    (ws count : ℕ) (ch : χ) (index speed : ℚ) (st : InterpState χ) (ent : TransformEntry)
    (hsp : speed ≤ 1)
    (hni : index ≠ (ratTrunc index : ℚ))
    (hent : st.transformCache ch = some ent)
    (hidx : ent.index = f32ToUsize (ratTrunc index))
    (hws : ws ∈ st.fftLengths) :
    (getInterpolatedSample P ws count ch index speed st).2 = st := by
  unfold getInterpolatedSample
  rw [if_pos hsp]
  rw [getNoAliasing_hit P ws count ch index st ent hni hent hidx]
  exact ensureFft_mem hws

/-- Witness for C7 at a concrete instance: a cached entry for base 0 is
reused by the query at index 1/2 and the state is untouched. -/
theorem c7_cache_hit_idempotent_witness :
    ((0 : ℚ) ≤ 1 ∧ (1 : ℚ) / 2 ≠ ((ratTrunc (1 / 2) : ℤ) : ℚ) ∧
        ({ transformCache := Function.update (fun _ => none) 0 (some ⟨0, fun _ => 0⟩),
           fftLengths := [2], calls := [] } : InterpState ℕ).transformCache 0 =
          some ⟨0, fun _ => 0⟩ ∧
        (⟨0, fun _ => 0⟩ : TransformEntry).index = f32ToUsize (ratTrunc (1 / 2)) ∧
        2 ∈ ([2] : List ℕ)) ∧
      (getInterpolatedSample sampleIdx 2 4 0 (1 / 2) 0
          ({ transformCache := Function.update (fun _ => none) 0 (some ⟨0, fun _ => 0⟩),
             fftLengths := [2], calls := [] } : InterpState ℕ)).2 =
        { transformCache := Function.update (fun _ => none) 0 (some ⟨0, fun _ => 0⟩),
          fftLengths := [2], calls := [] } :=
  ⟨⟨by norm_num, by norm_num [ratTrunc], by simp, by norm_num [ratTrunc, f32ToUsize], by simp⟩,
    c7_cache_hit_idempotent sampleIdx 2 4 0 (1 / 2) 0 _ ⟨0, fun _ => 0⟩
      (by norm_num) (by norm_num [ratTrunc]) (by simp) (by norm_num [ratTrunc, f32ToUsize])
      (by simp)⟩

/-- C2 counterexample: the code derives the window base with truncation
toward zero, not `floor`.  Querying index `-1/2` (fractional part
nonzero), the per-channel cache ends up recording base `0` (the bitcast of
`trunc(-1/2) = 0`), whereas `floor(-1/2) = -1` would have recorded the
distinct value `isizeToUsize (-1)`. -/
theorem c2_counterexample :
    ((getInterpolatedSample (sampleConst 1) 2 4 0 (-(1 / 2) : ℚ) 0
          (initState ℕ 2)).2.transformCache 0).map (fun ent => ent.index) =
        some (isizeToUsize 0) ∧
      ⌊(-(1 / 2) : ℚ)⌋ = -1 ∧ isizeToUsize 0 ≠ isizeToUsize (-1) := by
  have h1 : ratTrunc (-(1 / 2) : ℚ) = 0 := by norm_num [ratTrunc]
  refine ⟨?_, by norm_num, by decide⟩
  unfold getInterpolatedSample
  rw [if_pos (by norm_num : (0 : ℚ) ≤ 1)]
  rw [getNoAliasing_miss (sampleConst 1) 2 4 0 (-(1 / 2)) (initState ℕ 2)
    (by rw [h1]; norm_num) (by intro ent h; simp [initState] at h)]
  rw [computeTransform_ok (sampleConst 1) 2 4 0 (ratTrunc (-(1 / 2))) (2 / 2)
    (initState ℕ 2) [0, 1] (by rw [h1]; rfl)]
  dsimp only
  rw [ensureFft_cache, h1]
  simp

/-- C2 amended: for every query with nonzero fractional part and
nonnegative index, the window base equals `floor(index)` (in general the
code uses truncation toward zero, which differs from `floor` on negative
indices — see the counterexample), the fractional offset fed to the
per-bin phase rotation is `index - base` and lies in `(0, 1)`, and the
window positions are exactly the integers of `[base - ws/2, base + ws/2)`. -/
theorem c2_amended (ws : ℕ) (index : ℚ) (h0 : 0 ≤ index)
    (hni : index ≠ (ratTrunc index : ℚ)) :
    ratTrunc index = ⌊index⌋ ∧
      0 < index - (ratTrunc index : ℚ) ∧ index - (ratTrunc index : ℚ) < 1 ∧
      ∀ j : ℤ,
        j ∈ intRange (ratTrunc index - (ws / 2 : ℕ)) (ratTrunc index + (ws / 2 : ℕ)) ↔
          ratTrunc index - (ws / 2 : ℕ) ≤ j ∧ j < ratTrunc index + (ws / 2 : ℕ) := by
  have ht : ratTrunc index = ⌊index⌋ := ratTrunc_of_nonneg h0
  refine ⟨ht, ?_, ?_, fun j => mem_intRange⟩
  · rw [ht, Int.self_sub_floor]
    rw [Int.fract_pos]
    intro hcon
    exact hni (by rw [ht]; exact hcon)
  · rw [ht, Int.self_sub_floor]
    exact Int.fract_lt_one index

/-- Witness for C2 amended at index 5/2 with window size 4. -/
theorem c2_amended_witness :
    ((0 : ℚ) ≤ 5 / 2 ∧ (5 / 2 : ℚ) ≠ ((ratTrunc (5 / 2) : ℤ) : ℚ)) ∧
      (ratTrunc (5 / 2 : ℚ) = ⌊(5 / 2 : ℚ)⌋ ∧
        0 < (5 / 2 : ℚ) - (ratTrunc (5 / 2 : ℚ) : ℚ) ∧
          (5 / 2 : ℚ) - (ratTrunc (5 / 2 : ℚ) : ℚ) < 1 ∧
        ∀ j : ℤ,
          j ∈ intRange (ratTrunc (5 / 2 : ℚ) - (4 / 2 : ℕ)) (ratTrunc (5 / 2 : ℚ) + (4 / 2 : ℕ)) ↔
            ratTrunc (5 / 2 : ℚ) - (4 / 2 : ℕ) ≤ j ∧ j < ratTrunc (5 / 2 : ℚ) + (4 / 2 : ℕ)) :=
  ⟨⟨by norm_num, by norm_num [ratTrunc]⟩,
    c2_amended 4 (5 / 2) (by norm_num) (by norm_num [ratTrunc])⟩

/-- C4: if the provider fails at the first in-range position `j` of the
window of a fractional query (with a cache miss, so the window is indeed
assembled), the whole call returns exactly that error, and both the
per-channel transform cache and the plan cache are left exactly as they
were before the call — no partial result is cached. -/
theorem c4_error_propagation {χ ε : Type} [DecidableEq χ] (P : SampleProvider χ ε)
    (ws count : ℕ) (ch : χ) (index speed : ℚ) (st : InterpState χ)
    (l1 l2 : List ℤ) (j : ℤ) (er : ε)
    (hsp : speed ≤ 1)
    (hni : index ≠ (ratTrunc index : ℚ))
    (hmiss : ∀ ent, st.transformCache ch = some ent → ent.index ≠ f32ToUsize (ratTrunc index))
    (hsplit : intRange (ratTrunc index - (ws / 2 : ℕ)) (ratTrunc index + (ws / 2 : ℕ)) =
      l1 ++ j :: l2)
    (hok : ∀ j' ∈ l1, 0 ≤ j' → j' < (count : ℤ) → ∃ v, P ch j'.toNat = .ok v)
    (hj : 0 ≤ j ∧ j < (count : ℤ)) (he : P ch j.toNat = .error er) :
    (getInterpolatedSample P ws count ch index speed st).1 = .error er ∧
      (getInterpolatedSample P ws count ch index speed st).2.transformCache =
        st.transformCache ∧
      (getInterpolatedSample P ws count ch index speed st).2.fftLengths = st.fftLengths := by
  have hA : (assembleWindowT P count ch
      (intRange (ratTrunc index - ((ws / 2 : ℕ) : ℤ)) (ratTrunc index + ((ws / 2 : ℕ) : ℤ)))).1 =
      .error er := by
    rw [hsplit]
    exact assembleWindowT_firstError P count ch l1 l2 j er hok hj he
  unfold getInterpolatedSample
  rw [if_pos hsp, getNoAliasing_miss P ws count ch index st hni hmiss]
  rw [computeTransform_error P ws count ch (ratTrunc index) (ws / 2) st er hA]
  exact ⟨rfl, rfl, rfl⟩

/-- Witness for C4: provider failing at index 0, fractional query 1/2 with
window size 2 over 4 samples. -/
theorem c4_error_propagation_witness :
    (getInterpolatedSample (sampleErrAt 0) 2 4 0 (1 / 2) 0 (initState ℕ 2)).1 = .error () ∧
      (getInterpolatedSample (sampleErrAt 0) 2 4 0 (1 / 2) 0 (initState ℕ 2)).2.transformCache =
        (initState ℕ 2).transformCache ∧
      (getInterpolatedSample (sampleErrAt 0) 2 4 0 (1 / 2) 0 (initState ℕ 2)).2.fftLengths =
        (initState ℕ 2).fftLengths :=
  c4_error_propagation (sampleErrAt 0) 2 4 0 (1 / 2) 0 (initState ℕ 2) [-1] [] 0 ()
    (by norm_num) (by norm_num [ratTrunc])
    (by intro ent h; simp [initState] at h)
    (by
      have h : ratTrunc (1 / 2 : ℚ) = 0 := by norm_num [ratTrunc]
      rw [h]
      decide)
    (by
      intro j' hj' hge hlt
      simp only [List.mem_singleton] at hj'
      omega)
    (by norm_num) rfl

/-- C5: a speed of at most one delegates directly to the no-aliasing path;
for every speed above one the oversampling count is the smallest power of
two at least the speed, the per-step spacing is `speed / count` and is at
most one, and the oversampler issues exactly `count` sub-queries, each
resolved through the no-aliasing path (whose definition never re-enters
the oversampler). -/
theorem c5_oversampler_params {χ ε : Type} [DecidableEq χ] (P : SampleProvider χ ε)
    (ws count : ℕ) (ch : χ) (index speed : ℚ) (st : InterpState χ) :
    (speed ≤ 1 →
      getInterpolatedSample P ws count ch index speed st =
        getNoAliasing P ws count ch index st) ∧
    (1 < speed →
      ∃ k : ℕ, 0 < k ∧ (oversampleLoop speed 1).2 = 2 ^ k ∧
        speed ≤ ((2 : ℚ) ^ k) ∧ (∀ i < k, ((2 : ℚ) ^ i) < speed) ∧
        (oversampleLoop speed 1).1 = speed / 2 ^ k ∧ (oversampleLoop speed 1).1 ≤ 1 ∧
        getInterpolatedSample P ws count ch index speed st =
          getAliasing P ws count ch index speed st ∧
        (subQueryIndices index (oversampleLoop speed 1).1 (oversampleLoop speed 1).2).length =
          (oversampleLoop speed 1).2) := by
  constructor
  · intro hsp
    unfold getInterpolatedSample
    rw [if_pos hsp]
  · intro hsp
    obtain ⟨j, hj, hle, hmin⟩ := oversampleLoop_spec (⌈speed⌉).toNat speed 1 le_rfl
    have h2pos : (0 : ℚ) < 2 ^ j := by positivity
    have hj0 : j ≠ 0 := by
      intro h0
      subst h0
      rw [pow_zero, div_one] at hle
      linarith
    refine ⟨j, Nat.pos_of_ne_zero hj0, ?_, ?_, ?_, ?_, ?_, ?_, ?_⟩
    · rw [hj, one_mul]
    · exact (div_le_one h2pos).mp hle
    · intro i hi
      have := hmin i hi
      have hipos : (0 : ℚ) < 2 ^ i := by positivity
      exact (one_lt_div hipos).mp this
    · rw [hj]
    · rw [hj]
      exact hle
    · unfold getInterpolatedSample
      rw [if_neg (not_le.mpr hsp)]
    · unfold subQueryIndices
      rw [List.length_map, List.length_range]

/-- Witness for C5: the delegation branch at speed 1/2 and the
oversampling branch at speed 3 (count 4, spacing 3/4). -/
theorem c5_oversampler_params_witness :
    (getInterpolatedSample sampleIdx 4 10 0 (3 / 2) (1 / 2) (initState ℕ 4) =
        getNoAliasing sampleIdx 4 10 0 (3 / 2) (initState ℕ 4)) ∧
      (∃ k : ℕ, 0 < k ∧ (oversampleLoop 3 1).2 = 2 ^ k ∧
        (3 : ℚ) ≤ ((2 : ℚ) ^ k) ∧ (∀ i < k, ((2 : ℚ) ^ i) < 3) ∧
        (oversampleLoop 3 1).1 = 3 / 2 ^ k ∧ (oversampleLoop 3 1).1 ≤ 1 ∧
        getInterpolatedSample sampleIdx 4 10 0 (3 / 2) 3 (initState ℕ 4) =
          getAliasing sampleIdx 4 10 0 (3 / 2) 3 (initState ℕ 4) ∧
        (subQueryIndices (3 / 2) (oversampleLoop 3 1).1 (oversampleLoop 3 1).2).length =
          (oversampleLoop 3 1).2) :=
  ⟨(c5_oversampler_params sampleIdx 4 10 0 (3 / 2) (1 / 2) (initState ℕ 4)).1 (by norm_num),
    (c5_oversampler_params sampleIdx 4 10 0 (3 / 2) 3 (initState ℕ 4)).2 (by norm_num)⟩

/-- C10: every successful call with speed above one returns a nonnegative
value: the result is the polar amplitude of the sub-sample transform's DC
bin divided by the (nonnegative, measured) forward scale. -/
theorem c10_result_nonneg {χ ε : Type} [DecidableEq χ] (P : SampleProvider χ ε)
    (ws count : ℕ) (ch : χ) (index speed : ℚ) (st : InterpState χ) (v : ℝ)
    (hsp : 1 < speed)
    (hok : (getInterpolatedSample P ws count ch index speed st).1 = .ok v) :
    0 ≤ v := by
  unfold getInterpolatedSample at hok
  rw [if_neg (not_le.mpr hsp)] at hok
  unfold getAliasing at hok
  dsimp only at hok
  cases hR : runSubQueries P ws count ch
      (subQueryIndices index (oversampleLoop speed 1).1 (oversampleLoop speed 1).2) st with
  | mk r st1 =>
    rw [hR] at hok
    cases r with
    | error er => cases hok
    | ok vals =>
      dsimp only at hok
      rw [Except.ok.injEq] at hok
      rw [← hok]
      apply div_nonneg
      · exact AbsoluteValue.nonneg Complex.abs _
      · unfold forwardScale
        exact AbsoluteValue.nonneg Complex.abs _

/-! ### Evaluating the oversampler at speed 2 on integer indices -/

theorem except_map_okv {α β ε' : Type} (f : α → β) (a : α) :
    (Except.ok a : Except ε' α).map f = .ok (f a) := rfl

theorem except_map_errv {α β ε' : Type} (f : α → β) (er : ε') :
    (Except.error er : Except ε' α).map f = .error er := rfl

theorem oversampleLoop_two : oversampleLoop 2 1 = (1, 2) := by
  rw [oversampleLoop_eq, if_pos (by norm_num : (1 : ℚ) < 2)]
  norm_num
  rw [oversampleLoop_eq, if_neg (by norm_num : ¬ (1 : ℚ) < 1)]

theorem subQueryIndices_two (x : ℚ) : subQueryIndices x 1 2 = [x - 1, x] := by
  unfold subQueryIndices
  norm_num [List.range_succ]

/-- At an integer index with speed 2, the oversampler queries the two
integer points `n - 1` and `n` through the passthrough and returns the
absolute value of their sum divided by the measured forward scale 2. -/
theorem getAliasing_speed2_int {χ ε : Type} [DecidableEq χ] (P : SampleProvider χ ε)
    (ws count : ℕ) (ch : χ) (n : ℤ) (st : InterpState χ) (v1 v2 : ℚ)
    (h1 : P ch (f32ToUsize (n - 1)) = .ok v1) (h2 : P ch (f32ToUsize n) = .ok v2) :
    (getAliasing P ws count ch (n : ℚ) 2 st).1 = .ok (|((v1 + v2 : ℚ) : ℝ)| / 2) := by
  unfold getAliasing
  dsimp only
  rw [oversampleLoop_two]
  dsimp only
  rw [subQueryIndices_two]
  have hq1 : ((n : ℚ) - 1) = ((n - 1 : ℤ) : ℚ) := by push_cast; ring
  rw [hq1]
  simp only [runSubQueries]
  rw [getNoAliasing_intCast P ws count ch (n - 1) st, h1]
  simp only [except_map_okv]
  rw [getNoAliasing_intCast P ws count ch n
    { st with calls := st.calls ++ [(ch, f32ToUsize (n - 1))] }, h2]
  simp only [except_map_okv]
  have hdft : dftF 2 (fun m => ((([((v1 : ℚ) : ℝ), ((v2 : ℚ) : ℝ)].getD m 0 : ℝ)) : ℂ)) 0 =
      (((v1 + v2 : ℚ) : ℝ) : ℂ) := by
    rw [dftF_bin_zero]
    rw [Finset.sum_range_succ, Finset.sum_range_succ, Finset.sum_range_zero]
    push_cast
    norm_num
  rw [hdft, forwardScale_eq, Complex.abs_ofReal]
  norm_num

/-- Witness for C10: a constant-1 provider at integer index 200 with speed
2 succeeds with the nonnegative value `|1 + 1| / 2`. -/
theorem c10_result_nonneg_witness :
    (1 : ℚ) < 2 ∧
      ∃ v : ℝ,
        (getInterpolatedSample (sampleConst 1) 2 10 0 ((200 : ℤ) : ℚ) 2
            (initState ℕ 2)).1 = .ok v ∧ 0 ≤ v := by
  have hev : (getInterpolatedSample (sampleConst 1) 2 10 0 ((200 : ℤ) : ℚ) 2
      (initState ℕ 2)).1 = .ok (|((1 + 1 : ℚ) : ℝ)| / 2) := by
    unfold getInterpolatedSample
    rw [if_neg (by norm_num : ¬ (2 : ℚ) ≤ 1)]
    exact getAliasing_speed2_int (sampleConst 1) 2 10 0 200 (initState ℕ 2) 1 1 rfl rfl
  exact ⟨by norm_num,
    ⟨|((1 + 1 : ℚ) : ℝ)| / 2, hev,
      c10_result_nonneg (sampleConst 1) 2 10 0 ((200 : ℤ) : ℚ) 2 (initState ℕ 2) _
        (by norm_num) hev⟩⟩

/-- C6: what the code actually returns at the claim's inputs.  For the
alternating `+1, -1` provider at integer index 200 with speed 2 the result
is exactly 0 (the claim's first half holds).  For the Nyquist-plus-
period-4-harmonic provider, however, the code returns 1/4 at index 200
(≡ 0 mod 4) and 1/4 at index 202 (≡ 2 mod 4), while the claim — and the
repository's own test `antialiasing_filter_keeps_lower_frequency` — expect
the pattern values 1/2 and -1/2 there: the two-point sub-sample magnitude
|s(x-1) + s(x)| / 2 cannot reproduce the harmonic's value at `x`. -/
theorem c6_aliasing_values :
    (getInterpolatedSample sampleNyquist 10 8000 0 ((200 : ℤ) : ℚ) 2 (initState ℕ 10)).1 =
        .ok 0 ∧
      (getInterpolatedSample sampleHarmonic 10 8000 0 ((200 : ℤ) : ℚ) 2 (initState ℕ 10)).1 =
        .ok (1 / 4 : ℝ) ∧
      (getInterpolatedSample sampleHarmonic 10 8000 0 ((202 : ℤ) : ℚ) 2 (initState ℕ 10)).1 =
        .ok (1 / 4 : ℝ) ∧
      ((1 / 4 : ℝ) ≠ 1 / 2 ∧ (1 / 4 : ℝ) ≠ -(1 / 2)) := by
  refine ⟨?_, ?_, ?_, by norm_num, by norm_num⟩
  · unfold getInterpolatedSample
    rw [if_neg (by norm_num : ¬ (2 : ℚ) ≤ 1)]
    rw [getAliasing_speed2_int sampleNyquist 10 8000 0 200 (initState ℕ 10) (-1) 1
      rfl rfl]
    norm_num
  · unfold getInterpolatedSample
    rw [if_neg (by norm_num : ¬ (2 : ℚ) ≤ 1)]
    rw [getAliasing_speed2_int sampleHarmonic 10 8000 0 200 (initState ℕ 10) (-(1 / 2)) 1
      (by rw [show f32ToUsize (200 - 1) = 199 from by decide]; norm_num [sampleHarmonic])
      (by rw [show f32ToUsize 200 = 200 from by decide]; norm_num [sampleHarmonic])]
    rw [show (-(1 / 2) + 1 : ℚ) = 1 / 2 by norm_num]
    rw [show (((1 / 2 : ℚ) : ℝ)) = 1 / 2 by norm_num]
    rw [abs_of_nonneg (by norm_num : (0 : ℝ) ≤ 1 / 2)]
    norm_num
  · unfold getInterpolatedSample
    rw [if_neg (by norm_num : ¬ (2 : ℚ) ≤ 1)]
    rw [getAliasing_speed2_int sampleHarmonic 10 8000 0 202 (initState ℕ 10) (-(1 / 2)) 0
      (by rw [show f32ToUsize (202 - 1) = 201 from by decide]; norm_num [sampleHarmonic])
      (by rw [show f32ToUsize 202 = 202 from by decide]; norm_num [sampleHarmonic])]
    rw [show (-(1 / 2) + 0 : ℚ) = -(1 / 2) by norm_num]
    rw [show ((-(1 / 2) : ℚ) : ℝ) = -(1 / 2) by norm_num]
    rw [abs_neg, abs_of_nonneg (by norm_num : (0 : ℝ) ≤ 1 / 2)]
    norm_num

/-! ### The per-channel cache invariant -/

/-- A cache slot freshly written by `compute_transform`: the unrotated
forward spectrum of a successfully assembled window, recorded under the
bitcast of that window's base index. -/
def freshSlot {χ ε : Type} (P : SampleProvider χ ε) (ws count : ℕ) (c : χ)
    (o : Option TransformEntry) : Prop :=
  ∃ (b : ℤ) (w : List ℚ),
    (assembleWindowT P count c
      (intRange (b - ((ws / 2 : ℕ) : ℤ)) (b + ((ws / 2 : ℕ) : ℤ)))).1 = .ok w ∧
    o = some ⟨isizeToUsize b, fun k => dftF ws (fun n => ((w.getD n 0 : ℚ) : ℂ)) k⟩

theorem computeTransform_slot {χ ε : Type} [DecidableEq χ] (P : SampleProvider χ ε)
    (ws count : ℕ) (ch : χ) (base : ℤ) (st : InterpState χ) (c : χ) :
    (computeTransform P ws count ch base (ws / 2) st).2.transformCache c =
        st.transformCache c ∨
      freshSlot P ws count c
        ((computeTransform P ws count ch base (ws / 2) st).2.transformCache c) := by
  cases hA : assembleWindowT P count ch
      (intRange (base - ((ws / 2 : ℕ) : ℤ)) (base + ((ws / 2 : ℕ) : ℤ))) with
  | mk r cs =>
    cases r with
    | error er =>
      rw [computeTransform_error P ws count ch base (ws / 2) st er (by rw [hA])]
      exact Or.inl rfl
    | ok w =>
      rw [computeTransform_ok P ws count ch base (ws / 2) st w (by rw [hA])]
      by_cases hc : c = ch
      · subst hc
        right
        refine ⟨base, w, by rw [hA], ?_⟩
        dsimp only
        rw [Function.update_same]
      · left
        dsimp only
        rw [Function.update_noteq hc, ensureFft_cache]

theorem getNoAliasing_slot {χ ε : Type} [DecidableEq χ] (P : SampleProvider χ ε)
    (ws count : ℕ) (ch : χ) (index : ℚ) (st : InterpState χ) (c : χ) :
    (getNoAliasing P ws count ch index st).2.transformCache c = st.transformCache c ∨
      freshSlot P ws count c
        ((getNoAliasing P ws count ch index st).2.transformCache c) := by
  unfold getNoAliasing
  by_cases hint : index = ((ratTrunc index : ℤ) : ℚ)
  · rw [if_pos hint]
    exact Or.inl rfl
  · rw [if_neg hint]
    have hcomp : ∀ r1 : Except ε (ℕ → ℂ), ∀ st1 : InterpState χ,
        computeTransform P ws count ch (ratTrunc index) (ws / 2) st = (r1, st1) →
        st1.transformCache c = st.transformCache c ∨
          freshSlot P ws count c (st1.transformCache c) := by
      intro r1 st1 hC
      have hslot := computeTransform_slot P ws count ch (ratTrunc index) st c
      rw [hC] at hslot
      exact hslot
    cases hc : st.transformCache ch with
    | some ent =>
      dsimp only
      by_cases hidx : ent.index = f32ToUsize (ratTrunc index)
      · rw [if_pos hidx]
        dsimp only
        rw [ensureFft_cache]
        exact Or.inl rfl
      · rw [if_neg hidx]
        cases hC : computeTransform P ws count ch (ratTrunc index) (ws / 2) st with
        | mk r st1 =>
          cases r with
          | error er => exact hcomp _ st1 hC
          | ok T =>
            dsimp only
            rw [ensureFft_cache]
            exact hcomp _ st1 hC
    | none =>
      dsimp only
      cases hC : computeTransform P ws count ch (ratTrunc index) (ws / 2) st with
      | mk r st1 =>
        cases r with
        | error er => exact hcomp _ st1 hC
        | ok T =>
          dsimp only
          rw [ensureFft_cache]
          exact hcomp _ st1 hC

theorem runSubQueries_slot {χ ε : Type} [DecidableEq χ] (P : SampleProvider χ ε)
    (ws count : ℕ) (ch : χ) (l : List ℚ) (st : InterpState χ) (c : χ) :
    (runSubQueries P ws count ch l st).2.transformCache c = st.transformCache c ∨
      freshSlot P ws count c
        ((runSubQueries P ws count ch l st).2.transformCache c) := by
  induction l generalizing st with
  | nil => exact Or.inl rfl
  | cons i rest ih =>
    simp only [runSubQueries]
    cases hG : getNoAliasing P ws count ch i st with
    | mk r st1 =>
      have hg := getNoAliasing_slot P ws count ch i st c
      rw [hG] at hg
      cases r with
      | error er => exact hg
      | ok v =>
        dsimp only
        cases hR : runSubQueries P ws count ch rest st1 with
        | mk r2 st2 =>
          have hr := ih st1
          rw [hR] at hr
          cases r2 with
          | error er =>
            dsimp only
            rcases hr with hr | hr
            · rw [hr]
              exact hg
            · exact Or.inr hr
          | ok vs =>
            dsimp only
            rcases hr with hr | hr
            · rw [hr]
              exact hg
            · exact Or.inr hr

/-- C9: after any call, each channel's transform-cache slot is either
exactly what it was before the call, or a freshly computed entry holding
the unrotated forward spectrum of a successfully assembled window under
the bitcast of its base index.  In particular the phase rotation (applied
to a clone) never mutates a stored entry. -/
theorem c9_cache_slots {χ ε : Type} [DecidableEq χ] (P : SampleProvider χ ε)
    (ws count : ℕ) (ch : χ) (index speed : ℚ) (st : InterpState χ) (c : χ) :
    (getInterpolatedSample P ws count ch index speed st).2.transformCache c =
        st.transformCache c ∨
      freshSlot P ws count c
        ((getInterpolatedSample P ws count ch index speed st).2.transformCache c) := by
  unfold getInterpolatedSample
  by_cases hsp : speed ≤ 1
  · rw [if_pos hsp]
    exact getNoAliasing_slot P ws count ch index st c
  · rw [if_neg hsp]
    unfold getAliasing
    dsimp only
    cases hR : runSubQueries P ws count ch
        (subQueryIndices index (oversampleLoop speed 1).1 (oversampleLoop speed 1).2) st with
    | mk r st1 =>
      have hr := runSubQueries_slot P ws count ch
        (subQueryIndices index (oversampleLoop speed 1).1 (oversampleLoop speed 1).2) st c
      rw [hR] at hr
      cases r with
      | error er => exact hr
      | ok vals =>
        dsimp only
        rw [ensureFft_cache]
        exact hr

/-! ### DC invariance of the fractional reconstruction -/

theorem getD_map_const {α β : Type} (l : List α) (cv d : β) :
    ∀ n : ℕ, n < l.length → (l.map (fun _ => cv)).getD n d = cv := by
  induction l with
  | nil =>
    intro n hn
    simp at hn
  | cons a rest ih =>
    intro n hn
    cases n with
    | zero => simp
    | succ m =>
      simp only [List.map_cons, List.getD_cons_succ]
      refine ih m ?_
      simp only [List.length_cons] at hn
      omega

/-- The core numeric fact behind DC invariance: on a constant window of
value `c`, the forward spectrum is all-DC, the phase-rotation loop leaves
it unchanged, and the inverse transform's center tap divided by the
measured inverse scale recovers exactly `c`. -/
theorem dc_pipeline (ws : ℕ) (c : ℚ) (frac : ℝ) (hws0 : 0 < ws) (w : List ℚ)
    (hwval : ∀ n < ws, w.getD n 0 = c) :
    (dftI ws (rotateLoop ws (phaseShifts ws) frac
        (fun k => dftF ws (fun n => ((w.getD n 0 : ℚ) : ℂ)) k)) (ws / 2)).re /
      inverseScale ws = ((c : ℚ) : ℝ) := by
  have hTf : (fun k => dftF ws (fun n => ((w.getD n 0 : ℚ) : ℂ)) k) =
      fun k => dftF ws (fun _ => ((c : ℚ) : ℂ)) k :=
    funext (fun k => dftF_congr ws _ _ k (fun n hn => by rw [hwval n hn]))
  rw [hTf]
  have hzero : ∀ k, 0 < k → k < ws → dftF ws (fun _ => ((c : ℚ) : ℂ)) k = 0 :=
    fun k h1 h2 => dftF_const_ne_zero ws _ k h1 h2
  have hhalf : ws / 2 < ws := Nat.div_lt_self hws0 (by norm_num)
  have hcond : ∀ k, 1 ≤ k → k ≤ ws / 2 →
      dftF ws (fun _ => ((c : ℚ) : ℂ)) k = 0 ∧
      dftF ws (fun _ => ((c : ℚ) : ℂ)) (ws - k) = 0 := by
    intro k h1 h2
    exact ⟨hzero k h1 (by omega), hzero (ws - k) (by omega) (by omega)⟩
  rw [rotateLoop_fixed ws (phaseShifts ws) frac (fun k => dftF ws (fun _ => ((c : ℚ) : ℂ)) k)
    hcond]
  rw [dftI_dc ws _ (ws / 2) hws0 hzero]
  rw [dftF_const_zero]
  have hcast : ((ws : ℕ) : ℂ) * ((c : ℚ) : ℂ) = (((ws : ℝ) * ((c : ℚ) : ℝ) : ℝ) : ℂ) := by
    push_cast
    ring
  rw [hcast, Complex.ofReal_re, inverseScale_eq ws hws0]
  have hne : ((ws : ℕ) : ℝ) ≠ 0 := Nat.cast_ne_zero.mpr hws0.ne'
  field_simp

/-- C8: a constant provider is reconstructed exactly.  For a provider
returning `c` at every index and channel, a fractional query whose full
window lies inside `[0, sample_count)` (on a fresh interpolator, with
speed at most one and an even positive window) returns exactly `c`: the
constant window's spectrum is pure DC, the phase rotation fixes it, and
the division by the measured inverse round-trip scale restores `c`. -/
theorem c8_dc_invariance {χ ε : Type} [DecidableEq χ] (ws count : ℕ) (ch : χ) (c : ℚ)
    (index speed : ℚ)
    (hws0 : 0 < ws) (hws2 : ws % 2 = 0) (hsp : speed ≤ 1)
    (hni : index ≠ ((ratTrunc index : ℤ) : ℚ))
    (hlo : 0 ≤ ratTrunc index - ((ws / 2 : ℕ) : ℤ))
    (hhi : ratTrunc index + ((ws / 2 : ℕ) : ℤ) ≤ (count : ℤ)) :
    (getInterpolatedSample (fun _ _ => (.ok c : Except ε ℚ)) ws count ch index speed
        (initState χ ws)).1 = .ok ((c : ℚ) : ℝ) := by
  unfold getInterpolatedSample
  rw [if_pos hsp]
  rw [getNoAliasing_miss (fun _ _ => (.ok c : Except ε ℚ)) ws count ch index (initState χ ws)
    hni (by intro ent h; simp [initState] at h)]
  have hl : ∀ j ∈ intRange (ratTrunc index - ((ws / 2 : ℕ) : ℤ))
      (ratTrunc index + ((ws / 2 : ℕ) : ℤ)), 0 ≤ j ∧ j < (count : ℤ) := by
    intro j hj
    rw [mem_intRange] at hj
    omega
  have hconst := assembleWindowT_const (ε := ε) count ch c _ hl
  rw [computeTransform_ok (fun _ _ => (.ok c : Except ε ℚ)) ws count ch (ratTrunc index)
    (ws / 2) (initState χ ws) _ hconst]
  dsimp only
  have hlen : (intRange (ratTrunc index - ((ws / 2 : ℕ) : ℤ))
      (ratTrunc index + ((ws / 2 : ℕ) : ℤ))).length = ws := by
    rw [intRange_length]
    omega
  have hwval : ∀ n < ws,
      ((intRange (ratTrunc index - ((ws / 2 : ℕ) : ℤ))
        (ratTrunc index + ((ws / 2 : ℕ) : ℤ))).map (fun _ => c)).getD n 0 = c := by
    intro n hn
    refine getD_map_const _ c 0 n ?_
    rw [hlen]
    exact hn
  rw [dc_pipeline ws c _ hws0 _ hwval]

/-- Witness for C8: constant 3/4 at fractional index 21/2 with window
size 4 over 100 samples, speed 0. -/
theorem c8_dc_invariance_witness :
    ((0 : ℕ) < 4 ∧ (4 : ℕ) % 2 = 0 ∧ (0 : ℚ) ≤ 1 ∧
        (21 / 2 : ℚ) ≠ ((ratTrunc (21 / 2) : ℤ) : ℚ) ∧
        (0 : ℤ) ≤ ratTrunc (21 / 2 : ℚ) - ((4 / 2 : ℕ) : ℤ) ∧
        ratTrunc (21 / 2 : ℚ) + ((4 / 2 : ℕ) : ℤ) ≤ ((100 : ℕ) : ℤ)) ∧
      (getInterpolatedSample (fun _ _ => (.ok (3 / 4) : Except Unit ℚ)) 4 100 (0 : ℕ)
          (21 / 2) 0 (initState ℕ 4)).1 = .ok (((3 / 4 : ℚ) : ℝ)) :=
  ⟨⟨by norm_num, by norm_num, by norm_num, by norm_num [ratTrunc],
      by norm_num [ratTrunc], by norm_num [ratTrunc]⟩,
    c8_dc_invariance 4 100 0 (3 / 4) (21 / 2) 0 (by norm_num) (by norm_num) (by norm_num)
      (by norm_num [ratTrunc]) (by norm_num [ratTrunc]) (by norm_num [ratTrunc])⟩

end IndexSignal
